import Mathlib

/-!
Verification development for the tqdb repository (tools/TQAlert.py and
tools/for_web/cgi-bin/eConf.py).

Python strings are modelled as Lean `String` (logically a list of `Char`),
Python unbounded non-negative integers in the time/config domain as `Nat`,
and timestamps parsed from marker files (which may be negative, since
Python's `int()` accepts a sign) as `Int`.  Filesystem reads are modelled
as explicit oracle parameters.
-/

/-- The backslash character, written via its code point. -/
def backslashChar : Char := Char.ofNat 92

/-- The double-quote character, written via its code point. -/
def dquoteChar : Char := Char.ofNat 34

/-- The single-quote character, written via its code point. -/
def squoteChar : Char := Char.ofNat 39

/-- The ampersand character, written via its code point. -/
def ampChar : Char := Char.ofNat 38

/-- Recursion core for `replaceL`.  The `fuel` counter only makes the
recursion structural (each step consumes at least one character, so a fuel
equal to the list length always suffices); the `0, s => s` fallback is never
reached from `replaceL`.  See `replaceL_cons` for the loop-shaped unfolding. -/
def replaceAux (p r : List Char) : Nat → List Char → List Char
  | _, [] => []
  | 0, s => s
  | fuel + 1, a :: t =>
    if p.isPrefixOf (a :: t) then r ++ replaceAux p r fuel (t.drop (p.length - 1))
    else a :: replaceAux p r fuel t

/-- Model of Python's `str.replace(p, r)` on strings viewed as `List Char`:
scan left to right, replace each non-overlapping occurrence of `p` by `r`,
and continue scanning after the replacement (the inserted `r` is not
rescanned).  Only used with non-empty patterns `p`, exactly as in the
repository's calls. -/
def replaceL (p r s : List Char) : List Char := replaceAux p r s.length s

/-- Python's `str.replace` lifted to Lean `String` through its character list. -/
def str_replace (s pat rep : String) : String :=
  String.mk (replaceL pat.data rep.data s.data)

namespace EConf

/-- The HTML entity that eConf.py uses for a backslash. -/
def bsolEnt : List Char := "&bsol;".toList

/-- The HTML entity that eConf.py uses for a double quote. -/
def quotEnt : List Char := "&quot;".toList

/-- The HTML entity that eConf.py uses for a single quote. -/
def aposEnt : List Char := "&apos;".toList

/-- Model of `escape_config_value` (eConf.py lines 138-157): replace
backslash, then double quote, then single quote by their HTML entities,
in that order. -/
def escape_config_value (s : List Char) : List Char :=
  replaceL [squoteChar] aposEnt
    (replaceL [dquoteChar] quotEnt
      (replaceL [backslashChar] bsolEnt s))

/-- Model of `unescape_config_value` (eConf.py lines 160-178): replace the
`&quot;` entity, then `&apos;`, then `&bsol;` back to the original
characters, in that order. -/
def unescape_config_value (s : List Char) : List Char :=
  replaceL bsolEnt [backslashChar]
    (replaceL aposEnt [squoteChar]
      (replaceL quotEnt [dquoteChar] s))

/-- Proof-side view of escaping: apply a character-to-fragment map to every
character and concatenate the fragments. -/
def expand (g : Char → List Char) : List Char → List Char
  | [] => []
  | c :: t => g c ++ expand g t

/-- The per-character effect of the full escape pipeline. -/
def esc_full (c : Char) : List Char :=
  if c = backslashChar then bsolEnt
  else if c = dquoteChar then quotEnt
  else if c = squoteChar then aposEnt
  else [c]

/-- The per-character state of the pipeline after the `&quot;` entities have
been turned back into double quotes. -/
def esc_after_quot (c : Char) : List Char :=
  if c = backslashChar then bsolEnt
  else if c = squoteChar then aposEnt
  else [c]

/-- The per-character state of the pipeline after `&quot;` and `&apos;` have
been turned back into quote characters. -/
def esc_after_apos (c : Char) : List Char :=
  if c = backslashChar then bsolEnt
  else [c]

end EConf

namespace TQAlert

/-- Decode an HHMMSS-encoded value into seconds since midnight, exactly as
the arithmetic on lines 174-177 of TQAlert.py does:
`(t // 10000) * 3600 + ((t // 100) % 100) * 60 + (t % 100)`. -/
def hhmmss_to_seconds (t : Nat) : Nat :=
  (t / 10000) * 3600 + ((t / 100) % 100) * 60 + t % 100

/-- Re-encode a count of seconds as an HHMMSS-style decimal, exactly as lines
180-183 of TQAlert.py do: `hours = s // 3600`, `minutes = (s // 60) % 60`,
`seconds = s % 60`, then decimal concatenation `int(f"{hours:02d}{minutes:02d}{seconds:02d}")`,
which equals `hours * 10000 + minutes * 100 + seconds` because the minute and
second fields are always below 100.  Note there is no `% 24` on `hours`. -/
def seconds_to_hhmmss (s : Nat) : Nat :=
  (s / 3600) * 10000 + ((s / 60) % 60) * 100 + s % 60

/-- An HHMMSS value whose minute and second digit pairs are in range. -/
def valid_hhmmss (t : Nat) : Prop :=
  (t / 100) % 100 < 60 ∧ t % 100 < 60

/-- A processed time rule, as built by `_process_time_rules` in TQAlert.py
from the configuration list `[WeekVal, BeginTime, EndTime, TickSeconds, QuoteSeconds]`. -/
structure Rule where
  WeekVal : Nat
  Beg : Nat
  End_ : Nat
  TickSec : Nat
  QuoteSec : Nat
  BegOffset : Nat
deriving Repr, DecidableEq

/-- One iteration of `_process_time_rules` (TQAlert.py lines 139-185): turn a
rule parameter list into a rule record and compute `BegOffset`.  The chain of
`let min_interval` bindings mirrors the Python mutable variable `min_interval`
(initially 86400, lowered by each threshold that is positive and below the
current value, and reset to 0 when it is still 86400 at the end). -/
def process_time_rule (week_val beg end_t tick_sec quote_sec : Nat) : Rule :=
  let min_interval := 86400
  let min_interval := if tick_sec > 0 ∧ tick_sec < min_interval then tick_sec else min_interval
  let min_interval := if quote_sec > 0 ∧ quote_sec < min_interval then quote_sec else min_interval
  let min_interval := if min_interval = 86400 then 0 else min_interval
  let total_seconds := min_interval +
    (beg / 10000) * 3600 + ((beg / 100) % 100) * 60 + beg % 100
  let hours := total_seconds / 3600
  let minutes := (total_seconds / 60) % 60
  let seconds := total_seconds % 60
  { WeekVal := week_val, Beg := beg, End_ := end_t, TickSec := tick_sec,
    QuoteSec := quote_sec, BegOffset := hours * 10000 + minutes * 100 + seconds }

/-- The offset the code effectively applies to `BeginTime`: the minimum of the
thresholds lying strictly between 0 and 86400, or 0 when neither does.
Written as the same two-step chain as the code so the equality with
`process_time_rule` is transparent. -/
def effective_min (tick_sec quote_sec : Nat) : Nat :=
  let m1 := if tick_sec > 0 ∧ tick_sec < 86400 then tick_sec else 86400
  let m2 := if quote_sec > 0 ∧ quote_sec < m1 then quote_sec else m1
  if m2 = 86400 then 0 else m2

/-- The `BegOffset` value predicted by the specification sentence
"BeginOffset = Begin + min(nonzero thresholds), arithmetic in seconds,
re-encoded as HHMMSS; if both thresholds are 0, BeginOffset = Begin".
Modelled from the spec's words, for comparison with `process_time_rule`. -/
def spec_beg_offset (beg tick_sec quote_sec : Nat) : Nat :=
  if tick_sec = 0 ∧ quote_sec = 0 then beg
  else if tick_sec = 0 then seconds_to_hhmmss (hhmmss_to_seconds beg + quote_sec)
  else if quote_sec = 0 then seconds_to_hhmmss (hhmmss_to_seconds beg + tick_sec)
  else seconds_to_hhmmss (hhmmss_to_seconds beg + min tick_sec quote_sec)

/-- Model of `get_weekday_bitmap` (TQAlert.py lines 255-265):
`int(math.pow(10, 7 - weekday))`.  `math.pow` is exact for the exponents
0..6 that arise from ISO weekdays 1..7, so the value is `10 ^ (7 - weekday)`. -/
def get_weekday_bitmap (weekday : Nat) : Nat := 10 ^ (7 - weekday)

/-- The weekday test applied to each rule by `get_matching_rules`
(TQAlert.py line 381): `int(WeekVal / bitmap) % 10 == 1`.  Python divides
as floats there; for the 7-digit mask domain (`WeekVal < 2 ^ 53`, bitmap a
power of 10 up to `10 ^ 6`) the truncated float quotient coincides with the
integer floor quotient, which is what is written here. -/
def rule_matches_weekday (week_val bitmap : Nat) : Bool :=
  week_val / bitmap % 10 == 1

/-- Model of `get_matching_rules` (TQAlert.py lines 365-388): collect, over
every symbol and rule index, the rules whose `WeekVal` passes the weekday
bitmap test. -/
def get_matching_rules (time_rules : List (String × List Rule)) (bitmap : Nat) :
    List (String × Nat × Rule) :=
  time_rules.foldr (fun p acc =>
    ((p.2.enum.filter (fun ir => rule_matches_weekday ir.2.WeekVal bitmap)).map
      (fun ir => (p.1, ir.1, ir.2))) ++ acc) []

/-- Model of `is_within_time_range` (TQAlert.py lines 268-280):
`begin_time <= current_time < end_time` on the raw HHMMSS integers. -/
def is_within_time_range (current_time begin_time end_time : Nat) : Bool :=
  decide (begin_time ≤ current_time ∧ current_time < end_time)

/-- Minimum number of seconds between alerts for the same symbol
(TQAlert.py line 55). -/
def MIN_ALERT_INTERVAL : Int := 30

/-- The per-symbol mute-marker path `/tmp/TQAlert/TQAlert.skip.{symbol}`. -/
def skip_marker (symbol : String) : String := "/tmp/TQAlert/TQAlert.skip." ++ symbol

/-- Model of `should_skip_symbol` (TQAlert.py lines 283-305).  The
`os.path.isfile` probe of the mute marker is abstracted into the boolean
input `skip_file_exists`; the Python dict `last_alert_times` is modelled as
a partial map from symbols to timestamps. -/
def should_skip_symbol (skip_file_exists : Bool) (last_alert_times : String → Option Int)
    (symbol : String) (current_time : Int) : Bool × String :=
  if skip_file_exists then
    (true, "Skip file " ++ skip_marker symbol ++ " exists")
  else
    match last_alert_times symbol with
    | some t =>
        if current_time < t + MIN_ALERT_INTERVAL then
          (true, "Symbol alerted in past " ++ toString MIN_ALERT_INTERVAL ++ " seconds")
        else (false, "")
    | none => (false, "")

/-- The freshness-marker path `/tmp/lastTQ/{symbol}.{data_type}`. -/
def lastq_filename (symbol data_type : String) : String :=
  "/tmp/lastTQ/" ++ symbol ++ "." ++ data_type

/-- The `data_type` suffix for quote freshness markers. -/
def lastQ_key : String := "LastQ"

/-- The `data_type` suffix for tick freshness markers. -/
def lastT_key : String := "LastT"

/-- The first line of a file's content, as `f.readline()` returns it up to
(and here excluding) the newline; the subsequent `strip()` removes the
newline anyway. -/
def read_first_line (content : String) : String :=
  String.mk (content.data.takeWhile (fun c => c ≠ Char.ofNat 10))

/-- Parse a freshness marker's content as `int(f.readline().strip())` does.
Python's `int()` on a stripped decimal string (optionally signed) is
modelled by `String.toInt?`, with `none` standing for `ValueError`. -/
def parse_timestamp (content : String) : Option Int :=
  (read_first_line content).trim.toInt?

/-- Model of `read_last_timestamp` (TQAlert.py lines 207-227).  The
filesystem is an oracle `fs` from paths to optional contents; `none` stands
for `FileNotFoundError`/`IOError`, and an unparsable content stands for
`ValueError`.  In every failure case the function returns 0. -/
def read_last_timestamp (fs : String → Option String) (symbol data_type : String) : Int :=
  match fs (lastq_filename symbol data_type) with
  | none => 0
  | some content =>
      match parse_timestamp content with
      | none => 0
      | some n => n

/-- Model of `check_symbol_alerts` (TQAlert.py lines 391-429).  The mutable
`header, body` pair starts empty, the quote check may set it, and the tick
check runs afterwards and may overwrite it.  A single pair is returned. -/
def check_symbol_alerts (fs : String → Option String) (symbol : String) (rc : Rule)
    (current_time : Int) : String × String :=
  let hb0 : String × String := ("", "")
  let hb1 :=
    if rc.QuoteSec > 0 then
      let last_quote_time := read_last_timestamp fs symbol lastQ_key
      if current_time > last_quote_time + (rc.QuoteSec : Int) then
        ("No Quote Alert", symbol ++ " has no quote for " ++ toString rc.QuoteSec ++ " seconds!")
      else hb0
    else hb0
  if rc.TickSec > 0 then
    let last_tick_time := read_last_timestamp fs symbol lastT_key
    if current_time > last_tick_time + (rc.TickSec : Int) then
      ("No Tick Alert", symbol ++ " has no tick for " ++ toString rc.TickSec ++ " seconds!")
    else hb1
  else hb1

/-- The `{HEADER}` placeholder of alert command templates. -/
def hdr_placeholder : String := "\x7bHEADER\x7d"

/-- The `{BODY}` placeholder of alert command templates. -/
def body_placeholder : String := "\x7bBODY\x7d"

/-- The command string built by `execute_alert_command` (TQAlert.py lines
230-252) before it is handed to the shell: the template with `{HEADER}` and
`{BODY}` substituted.  (At run time the code additionally skips commands
whose substituted form starts with `#`.) -/
def execute_alert_command (command_template header body : String) : String :=
  str_replace (str_replace command_template hdr_placeholder header) body_placeholder body

/-- Observable outcome of evaluating one matching rule in the monitor loop:
the possibly-updated alert-state map, the alert that was raised (if any),
and the substituted alert commands that were dispatched. -/
structure StepResult where
  last_alert_times : String → Option Int
  alert : Option (String × String)
  cmds : List String

/-- Model of the per-rule body of the monitor loop (TQAlert.py lines
495-519): skip when outside the `[BegOffset, End)` window, then consult
`should_skip_symbol`, then compute the alert pair; when the header is
non-empty, record `last_alert_times[symbol] = now` and dispatch every
substituted alert command. -/
def process_rule (skip_file : String → Bool) (fs : String → Option String)
    (alert_commands : List String) (symbol : String) (rc : Rule)
    (now_hhmmss : Nat) (now_ts : Int) (last_alert_times : String → Option Int) : StepResult :=
  if is_within_time_range now_hhmmss rc.BegOffset rc.End_ then
    if (should_skip_symbol (skip_file symbol) last_alert_times symbol now_ts).1 then
      ⟨last_alert_times, none, []⟩
    else
      let hb := check_symbol_alerts fs symbol rc now_ts
      if hb.1 ≠ "" then
        ⟨fun s => if s = symbol then some now_ts else last_alert_times s,
         some hb,
         alert_commands.map (fun cmd => execute_alert_command cmd hb.1 hb.2)⟩
      else ⟨last_alert_times, none, []⟩
  else ⟨last_alert_times, none, []⟩

end TQAlert

namespace TQAlert

theorem begOffset_eq (w beg e t q : Nat) :
    (process_time_rule w beg e t q).BegOffset =
      seconds_to_hhmmss (hhmmss_to_seconds beg + effective_min t q) := by
  simp only [process_time_rule, effective_min, seconds_to_hhmmss, hhmmss_to_seconds]
  split_ifs <;> omega

theorem valid_roundtrip {b : Nat} (h : valid_hhmmss b) :
    seconds_to_hhmmss (hhmmss_to_seconds b) = b := by
  obtain ⟨h1, h2⟩ := h
  simp only [seconds_to_hhmmss, hhmmss_to_seconds]
  omega

end TQAlert

namespace EConf

end EConf

theorem replaceAux_stable (p r : List Char) :
    ∀ (fuel fuel' : Nat) (s : List Char), s.length ≤ fuel → s.length ≤ fuel' →
      replaceAux p r fuel s = replaceAux p r fuel' s := by
  intro fuel
  induction fuel with
  | zero =>
      intro fuel' s hs hs'
      have hnil : s = [] := List.length_eq_zero.mp (Nat.le_zero.mp hs)
      subst hnil
      cases fuel' <;> rfl
  | succ f ih =>
      intro fuel' s hs hs'
      cases s with
      | nil => cases fuel' <;> rfl
      | cons a t =>
          cases fuel' with
          | zero => simp at hs'
          | succ f' =>
              simp only [replaceAux]
              by_cases hpre : p.isPrefixOf (a :: t) = true
              · simp only [hpre, if_true]
                have hd : (t.drop (p.length - 1)).length ≤ f := by
                  simp only [List.length_drop]
                  simp only [List.length_cons] at hs
                  omega
                have hd' : (t.drop (p.length - 1)).length ≤ f' := by
                  simp only [List.length_drop]
                  simp only [List.length_cons] at hs'
                  omega
                rw [ih _ _ hd hd']
              · simp only [hpre, if_false, Bool.false_eq_true]
                have ht : t.length ≤ f := by
                  simp only [List.length_cons] at hs
                  omega
                have ht' : t.length ≤ f' := by
                  simp only [List.length_cons] at hs'
                  omega
                rw [ih _ _ ht ht']

theorem replaceL_cons (p r : List Char) (a : Char) (t : List Char) :
    replaceL p r (a :: t) =
      if p.isPrefixOf (a :: t) then r ++ replaceL p r (t.drop (p.length - 1))
      else a :: replaceL p r t := by
  simp only [replaceL, List.length_cons, replaceAux]
  by_cases hpre : p.isPrefixOf (a :: t) = true
  · simp only [hpre, if_true]
    have h1 : (t.drop (p.length - 1)).length ≤ t.length := by
      simp only [List.length_drop]
      omega
    rw [replaceAux_stable p r t.length (t.drop (p.length - 1)).length _ h1 (Nat.le_refl _)]
  · simp only [hpre, if_false, Bool.false_eq_true]

namespace EConf

theorem expand_append (g : Char → List Char) (x y : List Char) :
    expand g (x ++ y) = expand g x ++ expand g y := by
  induction x with
  | nil => rfl
  | cons a t ih => simp [expand, ih]

theorem replace_single_eq_expand (c0 : Char) (r : List Char) (s : List Char) :
    replaceL [c0] r s = expand (fun c => if c = c0 then r else [c]) s := by
  induction s with
  | nil => rfl
  | cons a t ih =>
      rw [replaceL_cons]
      simp only [List.isPrefixOf, List.isPrefixOf_nil_left, Bool.and_true, List.length_cons,
        List.length_nil, Nat.zero_add, Nat.sub_self, List.drop_zero, expand]
      by_cases h : a = c0
      · subst h
        simp [ih]
      · have hb : (c0 == a) = false := by
          simp only [beq_eq_false_iff_ne, ne_eq]
          exact fun hc => h hc.symm
        simp [hb, ih, h]

theorem expand_comp (g h : Char → List Char) (s : List Char) :
    expand g (expand h s) = expand (fun c => expand g (h c)) s := by
  induction s with
  | nil => rfl
  | cons a t ih => simp [expand, expand_append, ih]

theorem expand_congr {g h : Char → List Char} (H : ∀ c, g c = h c) (s : List Char) :
    expand g s = expand h s := by
  induction s with
  | nil => rfl
  | cons a t ih => simp [expand, H a, ih]

theorem expand_id (s : List Char) : expand (fun c => [c]) s = s := by
  induction s with
  | nil => rfl
  | cons a t ih => simp [expand, ih]

theorem escape_eq_expand (s : List Char) : escape_config_value s = expand esc_full s := by
  unfold escape_config_value
  rw [replace_single_eq_expand, replace_single_eq_expand, replace_single_eq_expand]
  rw [expand_comp, expand_comp]
  refine expand_congr (fun c => ?_) s
  by_cases h1 : c = backslashChar
  · subst h1
    decide
  · by_cases h2 : c = dquoteChar
    · subst h2
      decide
    · by_cases h3 : c = squoteChar
      · subst h3
        decide
      · simp [expand, esc_full, h1, h2, h3]

end EConf

namespace EConf

theorem replaceL_cons_of_not_prefixOf {p : List Char} (r : List Char) {a : Char} {t : List Char}
    (h : ¬ p.isPrefixOf (a :: t) = true) :
    replaceL p r (a :: t) = a :: replaceL p r t := by
  rw [replaceL_cons, if_neg h]

theorem head_ne_skip (p0 r : List Char) (a : Char) (t : List Char) (h : a ≠ ampChar) :
    replaceL (ampChar :: p0) r (a :: t) = a :: replaceL (ampChar :: p0) r t := by
  apply replaceL_cons_of_not_prefixOf
  simp only [List.isPrefixOf, Bool.and_eq_true, beq_iff_eq]
  rintro ⟨h1, -⟩
  exact h h1.symm

theorem all_ne_skip (p0 r : List Char) :
    ∀ (v z : List Char), (∀ x ∈ v, x ≠ ampChar) →
      replaceL (ampChar :: p0) r (v ++ z) = v ++ replaceL (ampChar :: p0) r z := by
  intro v
  induction v with
  | nil => intro z _; simp
  | cons a w ih =>
      intro z hv
      rw [List.cons_append, head_ne_skip p0 r a _ (hv a (by simp))]
      rw [ih z (fun x hx => hv x (by simp [hx]))]
      rfl

theorem not_prefixOf_append_of_ne {p u : List Char} (z : List Char)
    (hlen : p.length = u.length) (hne : p ≠ u) : ¬ p.isPrefixOf (u ++ z) = true := by
  intro h
  rw [List.isPrefixOf_iff_prefix] at h
  obtain ⟨k, hk⟩ := h
  apply hne
  calc p = (p ++ k).take p.length := (List.take_left p k).symm
    _ = ((u ++ z).take u.length) := by rw [hk, hlen]
    _ = u := List.take_left u z

theorem prefix_image_reflect (g : Char → List Char)
    (Hg : ∀ c, g c = [c] ∨ ∃ v, g c = ampChar :: v) :
    ∀ (w : List Char), (∀ x ∈ w, x ≠ ampChar) →
      ∀ t, w.isPrefixOf (expand g t) = true → w.isPrefixOf t = true := by
  intro w
  induction w with
  | nil =>
      intro _ t _
      exact List.isPrefixOf_nil_left
  | cons x w ih =>
      intro hw t hpre
      cases t with
      | nil => simp [expand, List.isPrefixOf] at hpre
      | cons c t =>
          rcases Hg c with hgc | ⟨v, hgc⟩
          · simp only [expand, hgc, List.singleton_append] at hpre
            simp only [List.isPrefixOf, Bool.and_eq_true, beq_iff_eq] at hpre ⊢
            obtain ⟨hxc, hrest⟩ := hpre
            exact ⟨hxc, ih (fun y hy => hw y (by simp [hy])) t hrest⟩
          · simp only [expand, hgc, List.cons_append] at hpre
            simp only [List.isPrefixOf, Bool.and_eq_true, beq_iff_eq] at hpre
            exact absurd hpre.1 (hw x (by simp))

end EConf

namespace EConf

theorem replaceL_expand_entity (g : Char → List Char) (c0 : Char) (p0 rep : List Char)
    (hgc0 : g c0 = ampChar :: p0)
    (himg : ∀ c, g c = [c] ∨
      ((g c).length = p0.length + 1 ∧ ∃ v, g c = ampChar :: v ∧ ∀ x ∈ v, x ≠ ampChar))
    (hinj : ∀ c, g c = ampChar :: p0 → c = c0)
    (hp0 : ∀ x ∈ p0, x ≠ ampChar) :
    ∀ s : List Char, ¬ (ampChar :: p0) <:+: s →
      replaceL (ampChar :: p0) rep (expand g s) =
        expand (fun c => if c = c0 then rep else g c) s := by
  intro s
  induction s with
  | nil => intro _; rfl
  | cons c t ih =>
      intro hninf
      have hninf_t : ¬ (ampChar :: p0) <:+: t := fun h => hninf (List.infix_cons h)
      simp only [expand]
      by_cases hc : c = c0
      · subst hc
        rw [hgc0, List.cons_append, replaceL_cons]
        have hpre : (ampChar :: p0).isPrefixOf (ampChar :: (p0 ++ expand g t)) = true := by
          rw [List.isPrefixOf_iff_prefix]
          exact ⟨expand g t, by simp⟩
        rw [if_pos hpre, List.length_cons, Nat.add_sub_cancel, List.drop_left]
        rw [ih hninf_t]
        simp
      · rcases himg c with hgc | ⟨hlen, v, hgv, hv⟩
        · rw [hgc]
          simp only [List.singleton_append]
          by_cases hca : c = ampChar
          · subst hca
            have hnp : ¬ (ampChar :: p0).isPrefixOf (ampChar :: expand g t) = true := by
              intro hp
              simp only [List.isPrefixOf, Bool.and_eq_true, beq_iff_eq] at hp
              have hrefl := prefix_image_reflect g
                (fun c => (himg c).elim Or.inl (fun h => Or.inr ⟨h.2.choose, h.2.choose_spec.1⟩))
                p0 hp0 t hp.2
              apply hninf
              rw [List.isPrefixOf_iff_prefix] at hrefl
              obtain ⟨k, hk⟩ := hrefl
              refine ⟨[], k, ?_⟩
              simp only [List.nil_append, List.cons_append, hk]
            rw [replaceL_cons_of_not_prefixOf rep hnp]
            rw [ih hninf_t]
            simp only [if_neg hc, List.singleton_append]
          · rw [head_ne_skip p0 rep c (expand g t) hca]
            rw [ih hninf_t]
            simp only [if_neg hc, hgc, List.singleton_append]
        · rw [hgv]
          have hvne : v ≠ p0 := by
            intro he
            subst he
            exact hc (hinj c hgv)
          have hnp : ¬ (ampChar :: p0).isPrefixOf ((ampChar :: v) ++ expand g t) = true := by
            apply not_prefixOf_append_of_ne
            · rw [hgv] at hlen
              simp only [List.length_cons] at hlen ⊢
              omega
            · intro he
              apply hvne
              exact (List.cons.injEq _ _ _ _ ▸ he).2.symm ▸ rfl
          rw [List.cons_append] at hnp ⊢
          rw [replaceL_cons_of_not_prefixOf rep hnp]
          rw [all_ne_skip p0 rep v (expand g t) hv]
          rw [ih hninf_t]
          simp only [if_neg hc, List.cons_append]

end EConf

namespace EConf

theorem himg_full : ∀ c, esc_full c = [c] ∨
    ((esc_full c).length = ("quot;".toList).length + 1 ∧
      ∃ v, esc_full c = ampChar :: v ∧ ∀ x ∈ v, x ≠ ampChar) := by
  intro c
  by_cases h1 : c = backslashChar
  · subst h1
    exact Or.inr ⟨by decide, "bsol;".toList, by decide, by decide⟩
  · by_cases h2 : c = dquoteChar
    · subst h2
      exact Or.inr ⟨by decide, "quot;".toList, by decide, by decide⟩
    · by_cases h3 : c = squoteChar
      · subst h3
        exact Or.inr ⟨by decide, "apos;".toList, by decide, by decide⟩
      · exact Or.inl (by simp [esc_full, h1, h2, h3])

theorem himg_after_quot : ∀ c, esc_after_quot c = [c] ∨
    ((esc_after_quot c).length = ("apos;".toList).length + 1 ∧
      ∃ v, esc_after_quot c = ampChar :: v ∧ ∀ x ∈ v, x ≠ ampChar) := by
  intro c
  by_cases h1 : c = backslashChar
  · subst h1
    exact Or.inr ⟨by decide, "bsol;".toList, by decide, by decide⟩
  · by_cases h3 : c = squoteChar
    · subst h3
      exact Or.inr ⟨by decide, "apos;".toList, by decide, by decide⟩
    · exact Or.inl (by simp [esc_after_quot, h1, h3])

theorem himg_after_apos : ∀ c, esc_after_apos c = [c] ∨
    ((esc_after_apos c).length = ("bsol;".toList).length + 1 ∧
      ∃ v, esc_after_apos c = ampChar :: v ∧ ∀ x ∈ v, x ≠ ampChar) := by
  intro c
  by_cases h1 : c = backslashChar
  · subst h1
    exact Or.inr ⟨by decide, "bsol;".toList, by decide, by decide⟩
  · exact Or.inl (by simp [esc_after_apos, h1])

theorem pass_quot (s : List Char) (h : ¬ quotEnt <:+: s) :
    replaceL quotEnt [dquoteChar] (expand esc_full s) = expand esc_after_quot s := by
  have e : quotEnt = ampChar :: "quot;".toList := by decide
  rw [e] at h ⊢
  rw [replaceL_expand_entity esc_full dquoteChar ("quot;".toList) [dquoteChar] (by decide)
    himg_full ?_ (by decide) s h]
  · refine expand_congr (fun c => ?_) s
    by_cases h1 : c = backslashChar
    · subst h1
      decide
    · by_cases h2 : c = dquoteChar
      · subst h2
        decide
      · by_cases h3 : c = squoteChar
        · subst h3
          decide
        · simp [esc_full, esc_after_quot, h1, h2, h3]
  · intro c hc
    by_cases h1 : c = backslashChar
    · subst h1
      exact absurd hc (by decide)
    · by_cases h2 : c = dquoteChar
      · exact h2
      · by_cases h3 : c = squoteChar
        · subst h3
          exact absurd hc (by decide)
        · rw [show esc_full c = [c] from by simp [esc_full, h1, h2, h3]] at hc
          injection hc with hch hct
          exact absurd hct (by decide)

theorem pass_apos (s : List Char) (h : ¬ aposEnt <:+: s) :
    replaceL aposEnt [squoteChar] (expand esc_after_quot s) = expand esc_after_apos s := by
  have e : aposEnt = ampChar :: "apos;".toList := by decide
  rw [e] at h ⊢
  rw [replaceL_expand_entity esc_after_quot squoteChar ("apos;".toList) [squoteChar] (by decide)
    himg_after_quot ?_ (by decide) s h]
  · refine expand_congr (fun c => ?_) s
    by_cases h1 : c = backslashChar
    · subst h1
      decide
    · by_cases h3 : c = squoteChar
      · subst h3
        decide
      · simp [esc_after_quot, esc_after_apos, h1, h3]
  · intro c hc
    by_cases h1 : c = backslashChar
    · subst h1
      exact absurd hc (by decide)
    · by_cases h3 : c = squoteChar
      · exact h3
      · rw [show esc_after_quot c = [c] from by simp [esc_after_quot, h1, h3]] at hc
        injection hc with hch hct
        exact absurd hct (by decide)

theorem pass_bsol (s : List Char) (h : ¬ bsolEnt <:+: s) :
    replaceL bsolEnt [backslashChar] (expand esc_after_apos s) = s := by
  have e : bsolEnt = ampChar :: "bsol;".toList := by decide
  rw [e] at h ⊢
  rw [replaceL_expand_entity esc_after_apos backslashChar ("bsol;".toList) [backslashChar]
    (by decide) himg_after_apos ?_ (by decide) s h]
  · refine Eq.trans (expand_congr (fun c => ?_) s) (expand_id s)
    by_cases h1 : c = backslashChar
    · subst h1
      decide
    · simp [esc_after_apos, h1]
  · intro c hc
    by_cases h1 : c = backslashChar
    · exact h1
    · rw [show esc_after_apos c = [c] from by simp [esc_after_apos, h1]] at hc
      injection hc with hch hct
      exact absurd hct (by decide)

end EConf

namespace EConf

/-- C5 (counterexample): the round-trip claim is false as stated: for the
string `&quot;` — which escaping leaves unchanged — unescaping the escaped
form yields the single double-quote character, not the original string. -/
theorem claim_C5_counterexample :
    unescape_config_value (escape_config_value ("&quot;".toList)) ≠ "&quot;".toList := by
  decide

/-- C5 (amended): for every string that does not already contain one of the
three HTML entities `&quot;`, `&apos;`, `&bsol;` as a substring, unescaping
the escaped form of `s` (escaping replaces backslash, double quote and
single quote by `&bsol;`, `&quot;`, `&apos;`; unescaping replaces them back)
yields exactly `s`. -/
theorem claim_C5_amended (s : List Char)
    (hq : ¬ quotEnt <:+: s) (ha : ¬ aposEnt <:+: s) (hb : ¬ bsolEnt <:+: s) :
    unescape_config_value (escape_config_value s) = s := by
  rw [escape_eq_expand]
  unfold unescape_config_value
  rw [pass_quot s hq, pass_apos s ha, pass_bsol s hb]

/-- C5 (witness): the amended round-trip evaluated on a concrete string
containing a backslash, a double quote, a single quote and an ampersand. -/
theorem claim_C5_witness :
    unescape_config_value (escape_config_value ("a\\b\"c&d".toList)) = "a\\b\"c&d".toList :=
  claim_C5_amended ("a\\b\"c&d".toList) (by decide) (by decide) (by decide)

end EConf

namespace TQAlert

/-- C1 (counterexample): the claim "BeginOffset = Begin shifted by
min(nonzero thresholds)" fails when a threshold is at least 86400: with
`Begin = 084500`, `TickSec = 86400`, `QuoteSec = 0` the spec predicts the
shifted value 324500 but the code leaves BegOffset at 084500, because the
code only lowers its minimum with thresholds strictly below 86400. -/
theorem claim_C1_counterexample :
    (process_time_rule 1000000 84500 120000 86400 0).BegOffset ≠
      spec_beg_offset 84500 86400 0 := by
  decide

/-- C1 (amended): for every loaded rule, BegOffset equals BeginTime shifted
forward by the minimum of the thresholds lying strictly between 0 and 86400
seconds (arithmetic in seconds, re-encoded as HHMMSS); when no threshold is
in that range — in particular when both are 0 — the shift is 0, and then
BegOffset equals BeginTime itself whenever BeginTime is a valid HHMMSS
value. -/
theorem claim_C1_amended (w beg e t q : Nat) :
    (process_time_rule w beg e t q).BegOffset =
      seconds_to_hhmmss (hhmmss_to_seconds beg + effective_min t q) ∧
    (t = 0 → q = 0 → valid_hhmmss beg →
      (process_time_rule w beg e t q).BegOffset = beg) := by
  refine ⟨begOffset_eq w beg e t q, fun ht hq hv => ?_⟩
  subst ht
  subst hq
  rw [begOffset_eq]
  have h0 : effective_min 0 0 = 0 := by decide
  rw [h0, Nat.add_zero, valid_roundtrip hv]

/-- C1 (witness): the amended theorem evaluated with both thresholds 0 at a
valid begin time. -/
theorem claim_C1_witness :
    (process_time_rule 1000000 84500 120000 0 0).BegOffset = 84500 :=
  (claim_C1_amended 1000000 84500 120000 0 0).2 rfl rfl ⟨by decide, by decide⟩

/-- C2 (counterexample): BegOffset is not always in the 0..235959 wall-clock
domain and does not roll over at midnight: with `Begin = 235959`,
`TickSec = 60` the code produces 240059 (claimed: wrap to 000059). -/
theorem claim_C2_counterexample :
    (process_time_rule 1000000 235959 240000 60 0).BegOffset = 240059 ∧
    ¬ (process_time_rule 1000000 235959 240000 60 0).BegOffset ≤ 235959 := by
  decide

/-- C2 (amended): BegOffset's minute and second fields are always below 60,
but there is no 24-hour rollover: BegOffset is in the HHMMSS wall-clock
domain (at most 235959) exactly when BeginTime-in-seconds plus the applied
offset stays below 86400; when the shifted time reaches midnight the value
exceeds 235959 instead of wrapping. -/
theorem claim_C2_amended (w beg e t q : Nat) :
    ((process_time_rule w beg e t q).BegOffset ≤ 235959 ↔
      hhmmss_to_seconds beg + effective_min t q < 86400) ∧
    ((process_time_rule w beg e t q).BegOffset / 100) % 100 < 60 ∧
    (process_time_rule w beg e t q).BegOffset % 100 < 60 := by
  rw [begOffset_eq w beg e t q]
  generalize hhmmss_to_seconds beg + effective_min t q = T
  simp only [seconds_to_hhmmss]
  omega

/-- C3: for every rule with both thresholds positive, when in one evaluation
pass both the quote and the tick are stale, the evaluator returns exactly
one (kind, message) pair — by construction it always returns a single pair —
and its kind is the tick one: the tick check runs after the quote check and
overwrites the quote candidate. -/
theorem claim_C3_tick_overwrites (fs : String → Option String) (sym : String) (rc : Rule)
    (now : Int) (ht : rc.TickSec > 0) (_hq : rc.QuoteSec > 0)
    (_hsq : now > read_last_timestamp fs sym lastQ_key + (rc.QuoteSec : Int))
    (hst : now > read_last_timestamp fs sym lastT_key + (rc.TickSec : Int)) :
    check_symbol_alerts fs sym rc now =
      ("No Tick Alert", sym ++ " has no tick for " ++ toString rc.TickSec ++ " seconds!") := by
  simp only [check_symbol_alerts]
  rw [if_pos ht, if_pos hst]

/-- C3 (witness): with both thresholds 60, both freshness markers absent
(probe 0) and current time 100, both signals are stale and the single alert
produced is the tick one. -/
theorem claim_C3_witness :
    check_symbol_alerts (fun _ => none) "AAPL"
      ⟨1000000, 0, 235959, 60, 60, 60⟩ 100 =
      ("No Tick Alert", "AAPL" ++ " has no tick for " ++ toString (60 : Nat) ++ " seconds!") :=
  claim_C3_tick_overwrites (fun _ => none) "AAPL" ⟨1000000, 0, 235959, 60, 60, 60⟩ 100
    (by decide) (by decide) (by decide) (by decide)

/-- C4: for every ISO weekday w in 1..7, the computed bitmap is a 7-digit
decimal with exactly one digit equal to 1, at position 7-w from the
least-significant digit, and a rule matches weekday w iff its mask has
digit 1 at that same position. -/
theorem claim_C4_weekday_bitmap (w : Nat) (h1 : 1 ≤ w) (h7 : w ≤ 7) :
    get_weekday_bitmap w < 10 ^ 7 ∧
    (∀ i, i < 7 → get_weekday_bitmap w / 10 ^ i % 10 = if i = 7 - w then 1 else 0) ∧
    (∀ mask : Nat, rule_matches_weekday mask (get_weekday_bitmap w) = true ↔
      mask / 10 ^ (7 - w) % 10 = 1) := by
  interval_cases w <;>
    exact ⟨by decide, by decide, fun mask => by simp [rule_matches_weekday, get_weekday_bitmap]⟩

/-- C4 (witness): Monday's bitmap is 1000000 and the all-days mask 1111111
matches Monday. -/
theorem claim_C4_witness :
    rule_matches_weekday 1111111 (get_weekday_bitmap 1) = true :=
  ((claim_C4_weekday_bitmap 1 (by decide) (by decide)).2.2 1111111).mpr (by decide)

/-- C7: the window check is exactly `begin <= now < end` on raw HHMMSS
integers, with no overnight unwrapping: when end < begin it is false for
every now. -/
theorem claim_C7_window (now b e : Nat) :
    (is_within_time_range now b e = true ↔ b ≤ now ∧ now < e) ∧
    (e < b → is_within_time_range now b e = false) := by
  constructor
  · simp [is_within_time_range]
  · intro h
    simp only [is_within_time_range, decide_eq_false_iff_not, not_and, not_lt]
    omega

/-- C7 (witness): the window check evaluated inside a normal window and on a
window with end < begin. -/
theorem claim_C7_witness :
    is_within_time_range 84600 84500 120000 = true ∧
    is_within_time_range 100000 120000 84500 = false :=
  ⟨(claim_C7_window 84600 84500 120000).1.mpr (by decide),
   (claim_C7_window 100000 120000 84500).2 (by decide)⟩

/-- C9: the freshness probe returns 0 when the marker file is absent (or
unreadable, modelled by the oracle returning none) and when its content does
not parse as an integer; otherwise it returns the integer stored in the
marker. -/
theorem claim_C9_probe (fs : String → Option String) (sym dt : String) :
    (fs (lastq_filename sym dt) = none → read_last_timestamp fs sym dt = 0) ∧
    (∀ c, fs (lastq_filename sym dt) = some c → parse_timestamp c = none →
      read_last_timestamp fs sym dt = 0) ∧
    (∀ c n, fs (lastq_filename sym dt) = some c → parse_timestamp c = some n →
      read_last_timestamp fs sym dt = n) := by
  refine ⟨fun h => ?_, fun c hc hp => ?_, fun c n hc hp => ?_⟩
  · simp [read_last_timestamp, h]
  · simp [read_last_timestamp, hc, hp]
  · simp [read_last_timestamp, hc, hp]

/-- C9 (witness): with an empty filesystem the probe returns 0. -/
theorem claim_C9_witness :
    read_last_timestamp (fun _ => none) "AAPL" lastT_key = 0 :=
  (claim_C9_probe (fun _ => none) "AAPL" lastT_key).1 rfl

/-- C10: a symbol with no entry in the alert-state map and no mute marker is
never skipped, for every current time: a symbol's first-ever alert is never
suppressed by the minimum-interval throttle. -/
theorem claim_C10_first_alert (m : String → Option Int) (sym : String) (ts : Int)
    (h : m sym = none) :
    should_skip_symbol false m sym ts = (false, "") := by
  simp [should_skip_symbol, h]

/-- C10 (witness): the empty alert-state map skips nothing. -/
theorem claim_C10_witness :
    should_skip_symbol false (fun _ => none) "X" 0 = (false, "") :=
  claim_C10_first_alert (fun _ => none) "X" 0 rfl

end TQAlert

namespace TQAlert

/-- C8: when the mute marker is present for a symbol, the skip check returns
true and the evaluation pass dispatches nothing and leaves the alert-state
map unchanged; moreover, in every pass the map is mutated only when an
alert is actually dispatched. -/
theorem claim_C8_mute_frame (skip_file : String → Bool) (fs : String → Option String)
    (cmds : List String) (sym : String) (rc : Rule) (hh : Nat) (ts : Int)
    (m : String → Option Int) :
    (skip_file sym = true →
      (should_skip_symbol (skip_file sym) m sym ts).1 = true ∧
      process_rule skip_file fs cmds sym rc hh ts m = ⟨m, none, []⟩) ∧
    ((process_rule skip_file fs cmds sym rc hh ts m).alert = none →
      (process_rule skip_file fs cmds sym rc hh ts m).last_alert_times = m) := by
  constructor
  · intro hs
    have h1 : (should_skip_symbol (skip_file sym) m sym ts).1 = true := by
      rw [hs]
      simp [should_skip_symbol]
    refine ⟨h1, ?_⟩
    by_cases hw : is_within_time_range hh rc.BegOffset rc.End_ = true
    · simp [process_rule, hw, h1]
    · simp [process_rule, hw]
  · intro halert
    by_cases hw : is_within_time_range hh rc.BegOffset rc.End_ = true
    · by_cases hsk : (should_skip_symbol (skip_file sym) m sym ts).1 = true
      · simp [process_rule, hw, hsk]
      · by_cases hhb : (check_symbol_alerts fs sym rc ts).1 = ""
        · simp [process_rule, hw, hsk, hhb]
        · exfalso
          simp [process_rule, hw, hsk, hhb] at halert
    · simp [process_rule, hw]

/-- C8 (witness): a muted evaluation with an otherwise fire-worthy rule
(inside the window, stale tick, empty alert state) skips, dispatches no
command and leaves the map unchanged. -/
theorem claim_C8_witness :
    process_rule (fun _ => true) (fun _ => none) [] "A"
      ⟨1000000, 0, 235959, 60, 0, 60⟩ 70 1000 (fun _ => none) =
      ⟨(fun _ => none), none, []⟩ :=
  ((claim_C8_mute_frame (fun _ => true) (fun _ => none) [] "A"
    ⟨1000000, 0, 235959, 60, 0, 60⟩ 70 1000 (fun _ => none)).1 rfl).2

/-- C6: once an alert for a symbol is dispatched at time ts (the map records
ts before dispatch), every later evaluation at a time earlier than
ts + MIN_ALERT_INTERVAL is skipped by the throttle — whatever the rule,
window or mute state of that later pass — so it dispatches nothing: two
fire-worthy evaluations within the interval produce exactly one dispatch. -/
theorem claim_C6_throttle (skip_file : String → Bool) (fs : String → Option String)
    (cmds : List String) (sym : String) (rc : Rule) (hh : Nat) (ts : Int)
    (m : String → Option Int)
    (skip_file2 : String → Bool) (fs2 : String → Option String) (cmds2 : List String)
    (rc2 : Rule) (hh2 : Nat) (ts2 : Int)
    (hdisp : (process_rule skip_file fs cmds sym rc hh ts m).alert.isSome = true)
    (hlt : ts2 < ts + MIN_ALERT_INTERVAL) :
    (should_skip_symbol (skip_file2 sym)
      (process_rule skip_file fs cmds sym rc hh ts m).last_alert_times sym ts2).1 = true ∧
    (process_rule skip_file2 fs2 cmds2 sym rc2 hh2 ts2
      (process_rule skip_file fs cmds sym rc hh ts m).last_alert_times).alert = none := by
  have hmap : (process_rule skip_file fs cmds sym rc hh ts m).last_alert_times sym = some ts := by
    by_cases hw : is_within_time_range hh rc.BegOffset rc.End_ = true
    · by_cases hsk : (should_skip_symbol (skip_file sym) m sym ts).1 = true
      · simp [process_rule, hw, hsk] at hdisp
      · by_cases hhb : (check_symbol_alerts fs sym rc ts).1 = ""
        · simp [process_rule, hw, hsk, hhb] at hdisp
        · simp [process_rule, hw, hsk, hhb]
    · simp [process_rule, hw] at hdisp
  have hskip : ∀ sf : Bool,
      (should_skip_symbol sf
        (process_rule skip_file fs cmds sym rc hh ts m).last_alert_times sym ts2).1 = true := by
    intro sf
    cases sf
    · simp [should_skip_symbol, hmap, hlt]
    · simp [should_skip_symbol]
  refine ⟨hskip _, ?_⟩
  have key : ∀ M : String → Option Int, M sym = some ts →
      (process_rule skip_file2 fs2 cmds2 sym rc2 hh2 ts2 M).alert = none := by
    intro M hM
    have hsk2 : (should_skip_symbol (skip_file2 sym) M sym ts2).1 = true := by
      cases hsf : skip_file2 sym
      · simp [should_skip_symbol, hM, hlt]
      · simp [should_skip_symbol]
    by_cases hw2 : is_within_time_range hh2 rc2.BegOffset rc2.End_ = true
    · simp [process_rule, hw2, hsk2]
    · simp [process_rule, hw2]
  exact key _ hmap

/-- C6 (witness): a first dispatching evaluation at epoch time 1000 followed
by a second otherwise fire-worthy evaluation at 1001 (within the 30-second
interval) dispatches nothing the second time. -/
theorem claim_C6_witness :
    (process_rule (fun _ => false) (fun _ => none) [] "A"
      ⟨1000000, 0, 235959, 60, 0, 60⟩ 70 1001
      (process_rule (fun _ => false) (fun _ => none) [] "A"
        ⟨1000000, 0, 235959, 60, 0, 60⟩ 70 1000 (fun _ => none)).last_alert_times).alert =
      none :=
  (claim_C6_throttle (fun _ => false) (fun _ => none) [] "A"
    ⟨1000000, 0, 235959, 60, 0, 60⟩ 70 1000 (fun _ => none)
    (fun _ => false) (fun _ => none) [] ⟨1000000, 0, 235959, 60, 0, 60⟩ 70 1001
    (by decide) (by decide)).2

end TQAlert
